import Mathlib

/-!
Verification development for `ftpmirror.py`, a script that mirrors a local
directory tree to an FTP server.

The script is embedded shallowly:

* Rule patterns (`-x`/`-k` command-line flags) are regular expressions; a small
  regular-expression language with a Brzozowski-derivative matcher stands in
  for the fragment of Python `re` the script needs.  `re.match` of the wrapped
  patterns `'(%s)$'` and `'(%s)(/|$)'` is embedded as a prefix scan with the
  corresponding end test.
* The local filesystem is a finitely branching tree of named entries; the
  `os.walk` loop with its in-place pruning of `dirs` becomes a recursive
  function over that tree.  Paths are kept as segment lists and joined with
  `/` exactly where the script builds candidate strings (POSIX: `os.sep = '/'`,
  `os.altsep = None`).
* FTP calls are oracles: each remote query result is passed in as a value of
  an `Except` type, `ftplib.error_perm` being the distinguished not-found
  outcome; `try/except` control flow becomes matching on those values.
* Python integers are `Int`; `os.stat_float_times(False)` makes local times
  integral.
-/

namespace FtpMirror

/-- Fragment of the Python `re` pattern language used by the script's rule
patterns: empty language, empty string, a literal character, the wildcard `.`,
alternation, concatenation and Kleene star. -/
inductive RE where
  | emp
  | eps
  | chr (c : Char)
  | dot
  | alt (a b : RE)
  | cat (a b : RE)
  | star (a : RE)

/-- Whether the language of the expression contains the empty word. -/
def RE.nullable : RE → Bool
  | .emp => false
  | .eps => true
  | .chr _ => false
  | .dot => false
  | .alt a b => a.nullable || b.nullable
  | .cat a b => a.nullable && b.nullable
  | .star _ => true

/-- Brzozowski derivative of an expression by one character. -/
def RE.deriv : RE → Char → RE
  | .emp, _ => .emp
  | .eps, _ => .emp
  | .chr d, c => if d = c then .eps else .emp
  | .dot, _ => .eps
  | .alt a b, c => .alt (a.deriv c) (b.deriv c)
  | .cat a b, c =>
    if a.nullable then .alt (.cat (a.deriv c) b) (b.deriv c) else .cat (a.deriv c) b
  | .star a, c => .cat (a.deriv c) (.star a)

/-- Whole-word matching: `r.rmatch w` holds iff `w` is in the language of `r`. -/
def RE.rmatch : RE → List Char → Bool
  | r, [] => r.nullable
  | r, c :: cs => (r.deriv c).rmatch cs

/-- The expression matching exactly one given literal word. -/
def strRE : List Char → RE
  | [] => .eps
  | c :: cs => .cat (.chr c) (strRE cs)

/-- The pattern `'.timestamp'` that ftpmirror.py:53 appends to the exclude
rules on every run: as a regular expression it is the wildcard `.` followed by
the literal `timestamp`. -/
def timestampRE : RE := .cat .dot (strRE "timestamp".data)

/-- Embeds `re.match('(%s)$' % p, s)`, the form in which ftpmirror.py:69-70
compiles every exclude and keep rule and ftpmirror.py:143, :177 and :183 apply
them: `re.match` tries to match the pattern against a prefix of `s` starting at
position 0, and the trailing `$` requires that prefix to end at the end of `s`
(candidate paths contain no trailing newline, so the newline special case of
`$` does not arise).  The wrapping group only captures and does not change the
language. -/
def ruleMatches (p : RE) (s : String) : Bool :=
  s.data.inits.any fun t => p.rmatch t && decide (t = s.data)

/-- Embeds `re.match('(%s)(/|$)' % p, s)` from the explicit-file filtering at
ftpmirror.py:58-62: the pattern must match a prefix of `s` starting at
position 0, and that prefix must be followed either by the end of `s` or by a
`/`. -/
def fileArgMatches (p : RE) (s : String) : Bool :=
  s.data.inits.any fun t =>
    p.rmatch t && (decide (t = s.data) || decide ((s.data.drop t.length).head? = some '/'))

/-- A candidate path matches some rule of a compiled rule list.  On POSIX
`os.altsep` is `None`, so the alternate-separator retry in the `or` at
ftpmirror.py:143-144/:177-178/:183-184 never fires and one test per rule is the
whole check. -/
def matchesAny (rules : List RE) (s : String) : Bool :=
  rules.any fun p => ruleMatches p s

/-- The exclude rule list after argument processing: whatever `-x` flags the
user gave, with `'.timestamp'` appended unconditionally (ftpmirror.py:53). -/
def effectiveExcludes (userExcludes : List RE) : List RE :=
  userExcludes ++ [timestampRE]

/-- Filtering of explicitly named files (ftpmirror.py:56-64): a file argument
is deleted as soon as any exclude rule matches it under the
segment-boundary-anchored test, so the kept arguments are those matching no
rule. -/
def filterExplicit (excludes : List RE) (files : List String) : List String :=
  files.filter fun f => !(excludes.any fun p => fileArgMatches p f)

/-- Canonical forward-slash join of a segment path, as the script builds
candidate strings with `os.path.join` from the walk-relative root (POSIX
`os.sep = '/'`; the walk root itself is the empty relative path, joined to
the empty string). -/
def joinPath : List String → String
  | [] => ""
  | [d] => d
  | d :: ds => d ++ "/" ++ joinPath ds

/-- One entry of a (local or remote) directory listing: a plain file name, or
a directory name together with its children. -/
inductive FSEntry where
  | file (name : String)
  | dir (name : String) (children : List FSEntry)

/-- The name of an entry. -/
def FSEntry.name : FSEntry → String
  | .file n => n
  | .dir n _ => n

/-- The file names directly inside a directory listing. -/
def fileNames (cs : List FSEntry) : List String :=
  cs.filterMap fun e => match e with | .file n => some n | .dir _ _ => none

/-- The `files` list of one visited directory after exclude filtering
(ftpmirror.py:181-186): every name whose walk-relative path matches an
exclude rule is deleted. -/
def nodeFiles (excl : List RE) (path : List String) (cs : List FSEntry) :
    List String :=
  (fileNames cs).filter fun n => !matchesAny excl (joinPath (path ++ [n]))

/-- The `(root, files)` record one visited directory contributes to the tree
(ftpmirror.py:188-189): the directory is recorded only when its filtered
`files` list is nonempty. -/
def nodeOut (excl : List RE) (path : List String) (cs : List FSEntry) :
    List (List String × List String) :=
  if nodeFiles excl path cs = [] then [] else [(path, nodeFiles excl path cs)]

mutual

/-- Contribution of one listing entry to the walk below a visited directory
(ftpmirror.py:174-180): a subdirectory whose walk-relative path matches an
exclude rule is deleted from `dirs` before `os.walk` descends, so its whole
subtree contributes nothing; a surviving subdirectory is visited (its own
record, then its subtree). -/
def walkEntry (excl : List RE) (path : List String) : FSEntry → List (List String × List String)
  | .file _ => []
  | .dir n c =>
    if matchesAny excl (joinPath (path ++ [n])) then []
    else nodeOut excl (path ++ [n]) c ++ walkList excl (path ++ [n]) c

/-- Contributions of the subdirectories of one listing, in listing order. -/
def walkList (excl : List RE) (path : List String) : List FSEntry → List (List String × List String)
  | [] => []
  | e :: rest => walkEntry excl path e ++ walkList excl path rest

end

/-- The local tree walk of ftpmirror.py:169-189 starting at one directory:
`os.walk` yields the directory itself first, then descends into the
subdirectories that survived exclude pruning. -/
def walk (excl : List RE) (path : List String) (cs : List FSEntry) :
    List (List String × List String) :=
  nodeOut excl path cs ++ walkList excl path cs

mutual

/-- Directories `os.walk` visits below one listing entry under exclude
pruning: none for a file or for a pruned subdirectory, the subdirectory and
its own visits otherwise. -/
def visitedEntry (excl : List RE) (path : List String) : FSEntry → List (List String)
  | .file _ => []
  | .dir n c =>
    if matchesAny excl (joinPath (path ++ [n])) then []
    else (path ++ [n]) :: visitedList excl (path ++ [n]) c

/-- Directories visited below the entries of one listing, in listing order. -/
def visitedList (excl : List RE) (path : List String) : List FSEntry → List (List String)
  | [] => []
  | e :: rest => visitedEntry excl path e ++ visitedList excl path rest

end

/-- The directories `os.walk` actually visits starting at one directory: the
directory itself, then recursively every subdirectory surviving exclude
pruning. -/
def visited (excl : List RE) (path : List String) (cs : List FSEntry) :
    List (List String) :=
  path :: visitedList excl path cs

mutual

/-- One iteration of the remote orphan indexer loop (ftpmirror.py:136-155) on
one listed name.  The keep rules are tested first (ftpmirror.py:142-147), but
the `continue` in that loop only advances to the next keep pattern, so the
test's outcome never prevents the entry from being processed; an entry the
server lets the script `cwd` into is recursed into and its results prefixed
with `name + '/'`, any other entry is appended as a candidate orphan file. -/
def rlstEntry (keeps : List RE) (path : String) (e : FSEntry) : List String :=
  let filePath := if path = "" then e.name else path ++ "/" ++ e.name
  let _kept := keeps.any fun k => ruleMatches k filePath
  match e with
  | .file n => [n]
  | .dir n c => (rlstList keeps filePath c).map fun nxt => n ++ "/" ++ nxt

/-- The loop of ftpmirror.py:136-155 over a whole listing, in listing order. -/
def rlstList (keeps : List RE) (path : String) : List FSEntry → List String
  | [] => []
  | e :: rest => rlstEntry keeps path e ++ rlstList keeps path rest

end

/-- The remote orphan indexer `rlst` of ftpmirror.py:132-156 run at the
document root. -/
def rlst (keeps : List RE) (es : List FSEntry) : List String :=
  rlstList keeps "" es

/-- Length of the longest common prefix of two segment lists. -/
def commonPrefixLen : List String → List String → Nat
  | a :: as, b :: bs => if a = b then commonPrefixLen as bs + 1 else 0
  | _, _ => 0

/-- Number of `cwd '..'` commands the navigation loop at ftpmirror.py:206-212
issues when moving from `lastDirs` to `dirs`: the loop scans `zip(lastDirs,
dirs)` and on the first mismatch at index `i` issues `len(lastDirs) - i`
parent moves and breaks; if the zip is exhausted without mismatch, none are
issued. -/
def navUps : List String → List String → Nat
  | a :: as, b :: bs => if a = b then navUps as bs else as.length + 1
  | _, _ => 0

/-- The index `i` the same loop leaves behind: the first mismatch position in
`zip(lastDirs, dirs)`, or `len(lastDirs)` when the zip is exhausted without a
mismatch (the `else` clause of the `for`). -/
def navI : List String → List String → Nat
  | a :: as, b :: bs => if a = b then navI as bs + 1 else 0
  | as, _ => as.length

/-- One navigation step of the sorted-tree upload loop (ftpmirror.py:194-214):
the number of parent moves issued, the new tracked state `lastDirs = dirs`
(ftpmirror.py:213), and the suffix `dirs[i:]` that remains to be drilled down
into. -/
def navStep (lastDirs dirs : List String) : Nat × List String × List String :=
  (navUps lastDirs dirs, dirs, dirs.drop (navI lastDirs dirs))

/-- Outcomes of an FTP command as the script distinguishes them:
`ftplib.error_perm` (the not-found / permission-style outcome caught at
ftpmirror.py:249) versus any other protocol failure, which no handler in the
upload loop catches. -/
inductive FtpError where
  | perm
  | temp
deriving DecidableEq

instance {ε α : Type} [DecidableEq ε] [DecidableEq α] : DecidableEq (Except ε α) := fun x y =>
  match x, y with
  | .ok a, .ok b =>
    if h : a = b then .isTrue (congrArg Except.ok h)
    else .isFalse fun hh => h (Except.ok.inj hh)
  | .error a, .error b =>
    if h : a = b then .isTrue (congrArg Except.error h)
    else .isFalse fun hh => h (Except.error.inj hh)
  | .ok _, .error _ => .isFalse fun hh => Except.noConfusion hh
  | .error _, .ok _ => .isFalse fun hh => Except.noConfusion hh

/-- Resolution of per-file remote metadata (ftpmirror.py:241-254): on success
the raw modification time gets the calibration offset added and the size is
taken as is (the `else` clause); `ftplib.error_perm` is caught and both values
become the plain integer 0 with no offset applied; any other error propagates
out of the loop. -/
def remoteMetaE (q : Except FtpError (Int × Int)) (off : Int) :
    Except FtpError (Int × Int) :=
  match q with
  | .ok (t, s) => .ok (t + off, s)
  | .error .perm => .ok (0, 0)
  | .error e => .error e

/-- The per-file upload decision of ftpmirror.py:256 on top of metadata
resolution: upload iff `local_time > remote_time or local_size != remote_size`,
where the remote values are those `remoteMetaE` produced. -/
def fileSyncDecisionE (localTime localSize : Int)
    (q : Except FtpError (Int × Int)) (off : Int) : Except FtpError Bool :=
  match remoteMetaE q off with
  | .error e => .error e
  | .ok (rt, rs) => .ok (decide (rt < localTime) || decide (localSize ≠ rs))

/-- The inner file loop of the upload pass (ftpmirror.py:225-267) for one tree
entry: files are probed in order, a file is uploaded exactly when the decision
is true, and an uncaught metadata error aborts the run. `localTime`,
`localSize` and `probe` are oracles for `os.path.getmtime`, `os.path.getsize`
and the remote metadata query, keyed by the file's tree path. -/
def syncFiles (localTime localSize : List String → Int)
    (probe : List String → Except FtpError (Int × Int)) (off : Int)
    (path : List String) : List String → Except FtpError (List (List String))
  | [] => .ok []
  | f :: fs =>
    let p := path ++ [f]
    match fileSyncDecisionE (localTime p) (localSize p) (probe p) off with
    | .error e => .error e
    | .ok b =>
      match syncFiles localTime localSize probe off path fs with
      | .error e => .error e
      | .ok rest => .ok (if b then p :: rest else rest)

/-- The outer upload loop over the sorted tree (ftpmirror.py:195-267),
collecting the uploaded paths in order; the first uncaught error aborts. -/
def syncRun (localTime localSize : List String → Int)
    (probe : List String → Except FtpError (Int × Int)) (off : Int) :
    List (List String × List String) → Except FtpError (List (List String))
  | [] => .ok []
  | e :: rest =>
    match syncFiles localTime localSize probe off e.1 e.2 with
    | .error err => .error err
    | .ok ups =>
      match syncRun localTime localSize probe off rest with
      | .error err => .error err
      | .ok more => .ok (ups ++ more)

/-- The body of the `try` at ftpmirror.py:112-121 as an outcome: it would
return a Boolean (whether `OPTS MLST modify;size;` was sent and accepted), but
every raised exception is an `error`.  On each run of the script that body
raises before reaching the `OPTS` command: Python's `re` rejects the pattern
`'^(?<=\s+MLST\s+)\S*$'` (a look-behind must be fixed-width), and even past
that, `str` objects have no method `lowercase` (ftpmirror.py:115). -/
def innerNegotiate (_features : String) : Except Unit Bool := .error ()

/-- The bare `except: pass` at ftpmirror.py:122-123 around the negotiation
body: a successful body determines the flag, any raise leaves
`use_mlst_modify_size` at its initial `False`. -/
def tryNegotiate (inner : Except Unit Bool) : Bool :=
  match inner with
  | .ok b => b
  | .error _ => false

/-- The value of `use_mlst_modify_size` after the negotiation block, for a
given feature string. -/
def negotiateMlst (features : String) : Bool :=
  tryNegotiate (innerNegotiate features)

/-- The capability phase (ftpmirror.py:107-123) with the `try` body kept
abstract: `features = ftp.sendcmd('FEAT')` runs before the `try`, so a failure
of the feature-list query itself propagates, while any outcome of the guarded
body is absorbed by `tryNegotiate`. -/
def capabilityPhaseG (feat : Except FtpError String)
    (inner : String → Except Unit Bool) : Except FtpError Bool :=
  match feat with
  | .error e => .error e
  | .ok f => .ok (tryNegotiate (inner f))

/-- The capability phase with the script's actual negotiation body. -/
def capabilityPhase (feat : Except FtpError String) : Except FtpError Bool :=
  capabilityPhaseG feat innerNegotiate

/-- Remote metadata round trips per file in the upload loop
(ftpmirror.py:242-248): one `MLST` when the capability is on, otherwise `MDTM`
plus `SIZE`. -/
def metadataQueries (useMlst : Bool) : Nat :=
  if useMlst then 1 else 2

/-- Observable side effects of the calibration block (ftpmirror.py:88-103):
whether `STOR .timestamp` succeeded at the remote document root, whether the
local `.timestamp` file was removed, and whether any delete command for the
remote marker was issued. -/
structure CalibEffects where
  remoteStored : Bool
  localRemoved : Bool
  remoteDeleted : Bool
deriving DecidableEq

/-- The calibration block ftpmirror.py:88-103: store the marker remotely, read
the local file's mtime and the remote copy's `MDTM` time, and return
`local_time - remote_time`; the `finally` runs `os.remove('.timestamp')` — on
the local file — on every exit path, and no remote delete command appears
anywhere in the block, so the stored remote marker stays (the comment at
ftpmirror.py:89 keeps it deliberately, as a last-update timestamp for the
server side). -/
def calibrate (storRes : Except FtpError Unit) (mdtmRes : Except FtpError Int)
    (localMtime : Int) : Except FtpError Int × CalibEffects :=
  match storRes with
  | .error e => (.error e, ⟨false, true, false⟩)
  | .ok _ =>
    match mdtmRes with
    | .error e => (.error e, ⟨true, true, false⟩)
    | .ok remoteTime => (.ok (localMtime - remoteTime), ⟨true, true, false⟩)

/-- The wrapped-rule test collapses to whole-path matching: `re.match` anchors
the pattern at the start of the candidate and the appended `$` anchors it at
the end, so exactly the full path is tested. -/
theorem ruleMatches_eq_rmatch (p : RE) (s : String) :
    ruleMatches p s = p.rmatch s.data := by
  unfold ruleMatches
  cases h : p.rmatch s.data with
  | true =>
    refine List.any_eq_true.mpr ⟨s.data, (List.mem_inits _ _).mpr List.prefix_rfl, ?_⟩
    simp [h]
  | false =>
    refine List.any_eq_false.mpr ?_
    intro t _
    by_cases hts : t = s.data
    · subst hts; simp [h]
    · simp [hts]

/-- C9 (amended): rule matching is anchored at both ends of the candidate
path.  For every compiled exclude or keep rule applied during tree walking or
orphan indexing, the wrapped pattern matches a candidate path exactly when the
pattern matches the entire path, so a match of a proper suffix (one not
starting at the beginning of the path) does not make the rule apply. -/
theorem rule_matching_anchored_both_ends (p : RE) (s : String) :
    ruleMatches p s = p.rmatch s.data :=
  ruleMatches_eq_rmatch p s

/-- C9 is false as stated: the pattern `b` matches the suffix `b` of the
candidate path `ab` (a suffix ending at the path's end), yet the compiled rule
does not match `ab`, because `re.match` additionally anchors the pattern at
the start of the path. -/
theorem rule_suffix_match_not_sufficient :
    (strRE "b".data).rmatch "b".data = true ∧
    "b".data <:+ "ab".data ∧
    ruleMatches (strRE "b".data) "ab" = false := by
  refine ⟨by decide, ⟨"a".data, by decide⟩, by decide⟩

/-- C5 (amended): a permission-style failure of the remote metadata query is
treated as "remote file absent" rather than aborting the run: the decision is
still computed, with remote modification time and size both the plain integer
0 (the calibration offset is not applied on this branch), so the file is
uploaded iff its local modification time is positive or its local size is
nonzero — in particular a local file of size 0 with modification time ≤ 0 is
not uploaded. -/
theorem perm_failure_treated_as_absent (localTime localSize off : Int) :
    remoteMetaE (Except.error FtpError.perm) off = Except.ok (0, 0) ∧
    fileSyncDecisionE localTime localSize (Except.error FtpError.perm) off =
      Except.ok (decide (0 < localTime) || decide (localSize ≠ 0)) :=
  ⟨rfl, rfl⟩

/-- C5 is false as stated: a permission failure on the metadata query does not
force an upload for every local file.  A run over a tree holding one file of
local size 0 and local modification time 0 (≤ 0), with every metadata query
failing with the permission outcome, performs no upload at all. -/
theorem perm_failure_zero_file_not_uploaded :
    syncRun (fun _ => 0) (fun _ => 0) (fun _ => Except.error FtpError.perm) 7
      [([], ["empty.dat"])] = Except.ok [] ∧
    fileSyncDecisionE 0 0 (Except.error FtpError.perm) 7 = Except.ok false := by
  exact ⟨by decide, by decide⟩

/-- C6: the code contradicts the spec's stated intent here.  Even when the
remote feature list advertises `MLST` with `modify` and `size` facts, the
capability is never enabled: the negotiation body raises before reaching the
`OPTS` command (Python's `re` rejects the variable-width look-behind in
`'^(?<=\s+MLST\s+)\S*$'`, and `str` has no method `lowercase`), the bare
`except` swallows the exception, `use_mlst_modify_size` stays false, and
per-file metadata is always fetched with the two separate queries. -/
theorem mlst_negotiation_never_enables :
    capabilityPhase
        (Except.ok "211-Features:\n MLST modify*;size*;type*;\n211 End") =
      Except.ok false ∧
    (∀ features, negotiateMlst features = false) ∧
    metadataQueries
        (negotiateMlst "211-Features:\n MLST modify*;size*;type*;\n211 End") = 2 :=
  ⟨rfl, fun _ => rfl, rfl⟩

/-- C7 is false as stated: the feature-list query itself runs before the
`try` block of the negotiation, so its failure is not absorbed — the error
propagates and the run aborts instead of continuing with the optimization
disabled. -/
theorem feat_query_failure_aborts :
    capabilityPhase (Except.error FtpError.perm) = Except.error FtpError.perm ∧
    capabilityPhase (Except.error FtpError.temp) = Except.error FtpError.temp :=
  ⟨rfl, rfl⟩

/-- C7 (amended): once the feature list has been retrieved, negotiation never
aborts the run: every outcome of parsing or enabling the capability is
absorbed by the bare `except`, failure merely leaving the optimization
disabled so metadata is fetched via two separate queries per file.  A failure
of the feature-list query itself, however, propagates and aborts the run. -/
theorem negotiation_after_feat_nonfatal (features : String)
    (inner : String → Except Unit Bool) (e : FtpError) :
    capabilityPhaseG (Except.ok features) inner =
      Except.ok (tryNegotiate (inner features)) ∧
    tryNegotiate (Except.error ()) = false ∧
    capabilityPhase (Except.ok features) = Except.ok false ∧
    metadataQueries (negotiateMlst features) = 2 ∧
    capabilityPhaseG (Except.error e) inner = Except.error e :=
  ⟨rfl, rfl, rfl, rfl, rfl⟩

/-- C8 is false as stated: on a successful run the offset is computed
(here `160 - 100 = 60`) and the local marker file is removed, but no delete
command for the remote marker is ever issued — the remote `.timestamp` stays
at the document root. -/
theorem remote_marker_not_deleted :
    calibrate (Except.ok ()) (Except.ok 100) 160 =
      (Except.ok 60, ⟨true, true, false⟩) := by decide

/-- C8 (amended): on every run the calibration marker is stored at the remote
document root and the local `.timestamp` file is removed on every exit path,
including both error paths (store failure and time-query failure); the remote
marker object is never deleted — it persists at the document root
deliberately, as the recorded time of the last update. -/
theorem calibration_cleanup_paths (storRes : Except FtpError Unit)
    (mdtmRes : Except FtpError Int) (localMtime : Int) :
    (calibrate storRes mdtmRes localMtime).2.localRemoved = true ∧
    (calibrate storRes mdtmRes localMtime).2.remoteDeleted = false ∧
    ((calibrate storRes mdtmRes localMtime).2.remoteStored = true ↔
      storRes = Except.ok ()) := by
  cases storRes <;> cases mdtmRes <;> simp [calibrate]

/-- A list is never lexicographically smaller than one of its initial
segments. -/
theorem not_lex_of_initSeg :
    ∀ {l₂ l₁ : List Char}, l₂ <+: l₁ → ¬ List.Lex (· < ·) l₁ l₂ := by
  intro l₂
  induction l₂ with
  | nil => exact fun _ h => List.Lex.not_nil_right _ _ h
  | cons b bs ih =>
    intro l₁ hpre hlex
    obtain ⟨t, ht⟩ := hpre
    subst ht
    exact ih ⟨t, rfl⟩ (List.Lex.cons_iff.mp hlex)

/-- Joining a longer segment list extends the joined string of any of its
initial segment lists. -/
theorem joinPath_data_initSeg :
    ∀ (d t : List String), (joinPath d).data <+: (joinPath (d ++ t)).data := by
  intro d
  induction d with
  | nil => intro t; exact List.nil_prefix
  | cons a as ih =>
    intro t
    cases as with
    | nil =>
      cases t with
      | nil => exact List.prefix_rfl
      | cons b ts =>
        show (joinPath [a]).data <+: (joinPath (a :: b :: ts)).data
        simp only [joinPath, String.data_append]
        exact ⟨"/".data ++ (joinPath (b :: ts)).data, by simp⟩
    | cons a' as' =>
      obtain ⟨u, hu⟩ := ih t
      show (joinPath (a :: a' :: as')).data <+: (joinPath (a :: a' :: (as' ++ t))).data
      simp only [joinPath, String.data_append]
      exact ⟨u, by simpa [List.append_assoc] using hu⟩

/-- Sorted ascending order of the joined directory paths rules out the target
being an initial segment of the previous directory: the navigation loop's
zip can then not be exhausted with segments of `lastDirs` left over. -/
theorem not_initSeg_of_joined_lt {d1 d2 : List String}
    (h : joinPath d1 < joinPath d2) : ¬ d2 <+: d1 := by
  intro hpre
  obtain ⟨t, ht⟩ := hpre
  have hdata : (joinPath d2).data <+: (joinPath d1).data := by
    rw [← ht]; exact joinPath_data_initSeg d2 t
  exact not_lex_of_initSeg hdata (String.lt_iff_toList_lt.mp h)

/-- The parent-move count of the navigation loop, computed in closed form:
whenever the target is not an initial segment of the previous directory, the
loop issues `len(lastDirs) - k` moves for `k` the longest-common-prefix
length. -/
theorem navUps_eq :
    ∀ (d1 d2 : List String), ¬ d2 <+: d1 →
      navUps d1 d2 = d1.length - commonPrefixLen d1 d2
  | [], d2, _ => by cases d2 <;> simp [navUps, commonPrefixLen]
  | _ :: _, [], h => absurd List.nil_prefix h
  | a :: as, b :: bs, h => by
    by_cases hab : a = b
    · subst hab
      have h' : ¬ bs <+: as := fun hp => h (List.cons_prefix_cons.mpr ⟨rfl, hp⟩)
      show (if a = a then navUps as bs else as.length + 1) =
        (a :: as).length - (if a = a then commonPrefixLen as bs + 1 else 0)
      rw [if_pos rfl, if_pos rfl, navUps_eq as bs h', List.length_cons]
      omega
    · simp [navUps, commonPrefixLen, hab]

/-- C2: for consecutive directory entries D1 then D2 in sorted ascending
order by directory path, the navigation loop issues exactly
`len(D1_segments) - common_prefix_length(D1, D2)` parent moves, and afterwards
the tracked current-directory state `lastDirs` equals D2's segment list. -/
theorem navigator_parent_moves (d1 d2 : List String)
    (hsorted : joinPath d1 < joinPath d2) :
    (navStep d1 d2).1 = d1.length - commonPrefixLen d1 d2 ∧
    (navStep d1 d2).2.1 = d2 :=
  ⟨navUps_eq d1 d2 (not_initSeg_of_joined_lt hsorted), rfl⟩

/-- Witness for C2 at the concrete consecutive directories `a/b` then
`a/c`: one parent move is issued (`2 - 1`), and the tracked state becomes
`[a, c]`. -/
theorem navigator_parent_moves_witness :
    joinPath ["a", "b"] < joinPath ["a", "c"] ∧
    (navStep ["a", "b"] ["a", "c"]).1 =
      (["a", "b"] : List String).length - commonPrefixLen ["a", "b"] ["a", "c"] ∧
    (navStep ["a", "b"] ["a", "c"]).2.1 = ["a", "c"] := by
  have h : joinPath ["a", "b"] < joinPath ["a", "c"] :=
    String.lt_iff_toList_lt.mpr (by decide)
  exact ⟨h, navigator_parent_moves _ _ h⟩

/-- Membership in a visited directory's record forces the record's shape. -/
theorem mem_nodeOut {excl : List RE} {path : List String} {cs : List FSEntry}
    {e : List String × List String} (h : e ∈ nodeOut excl path cs) :
    e = (path, nodeFiles excl path cs) := by
  unfold nodeOut at h
  split at h
  · cases h
  · simpa using h

/-- The walk below one subdirectory entry is the subdirectory's walk, guarded
by its exclude test. -/
theorem walkEntry_dir (excl : List RE) (path : List String) (n : String)
    (c : List FSEntry) :
    walkEntry excl path (FSEntry.dir n c) =
      if matchesAny excl (joinPath (path ++ [n])) then []
      else walk excl (path ++ [n]) c :=
  rfl

/-- Characterization of the records contributed by the subdirectories of one
listing: exactly the records of walks of unpruned subdirectories. -/
theorem mem_walkList {excl : List RE} {path : List String} :
    ∀ {cs : List FSEntry} {e : List String × List String},
      e ∈ walkList excl path cs ↔
        ∃ n c, FSEntry.dir n c ∈ cs ∧
          matchesAny excl (joinPath (path ++ [n])) = false ∧
          e ∈ walk excl (path ++ [n]) c := by
  intro cs
  induction cs with
  | nil => intro e; simp [walkList]
  | cons head rest ih =>
    intro e
    cases head with
    | file m =>
      show e ∈ walkEntry excl path (FSEntry.file m) ++ walkList excl path rest ↔ _
      rw [show walkEntry excl path (FSEntry.file m) = [] from rfl, List.nil_append, ih]
      constructor
      · rintro ⟨n, c, hmem, hm, he⟩
        exact ⟨n, c, List.mem_cons_of_mem _ hmem, hm, he⟩
      · rintro ⟨n, c, hmem, hm, he⟩
        rcases List.mem_cons.mp hmem with hh | ht
        · cases hh
        · exact ⟨n, c, ht, hm, he⟩
    | dir m cm =>
      show e ∈ walkEntry excl path (FSEntry.dir m cm) ++ walkList excl path rest ↔ _
      rw [List.mem_append, walkEntry_dir, ih]
      constructor
      · rintro (hent | ⟨n, c, hmem, hm, he⟩)
        · split at hent
          · cases hent
          · rename_i hm
            exact ⟨m, cm, List.mem_cons_self _ _,
              Bool.not_eq_true _ ▸ Bool.of_not_eq_true hm, hent⟩
        · exact ⟨n, c, List.mem_cons_of_mem _ hmem, hm, he⟩
      · rintro ⟨n, c, hmem, hm, he⟩
        rcases List.mem_cons.mp hmem with hh | ht
        · obtain ⟨hn, hc⟩ := FSEntry.dir.inj hh
          subst hn; subst hc
          left
          rw [if_neg (by simp [hm])]
          exact he
        · exact Or.inr ⟨n, c, ht, hm, he⟩

/-- A subdirectory's children are smaller than the whole listing. -/
theorem sizeOf_children_lt {n : String} {c : List FSEntry} {cs : List FSEntry}
    (h : FSEntry.dir n c ∈ cs) : sizeOf c < sizeOf cs := by
  have h1 := List.sizeOf_lt_of_mem h
  have h2 : sizeOf (FSEntry.dir n c) = 1 + sizeOf n + sizeOf c := by simp
  omega

/-- The walk invariant: every record produced below `path` sits below `path`,
every strictly intermediate directory on the way to it passed the exclude
test, and every recorded file name passed the exclude test for its own
path. -/
theorem walk_spec :
    ∀ (N : Nat) (cs : List FSEntry), sizeOf cs ≤ N →
    ∀ (excl : List RE) (path : List String) (e : List String × List String),
      e ∈ walk excl path cs →
      path <+: e.1 ∧
      (∀ q, path <+: q → q ≠ path → q <+: e.1 →
        matchesAny excl (joinPath q) = false) ∧
      (∀ f ∈ e.2, matchesAny excl (joinPath (e.1 ++ [f])) = false) := by
  intro N
  induction N with
  | zero =>
    intro cs h
    cases cs with
    | nil => simp at h
    | cons a l =>
      have hsz : sizeOf (a :: l) = 1 + sizeOf a + sizeOf l := by simp
      omega
  | succ N ih =>
    intro cs h excl path e he
    rcases List.mem_append.mp he with h1 | h2
    · obtain rfl := mem_nodeOut h1
      refine ⟨List.prefix_rfl, ?_, ?_⟩
      · intro q hpq hne hq
        exact absurd (hq.eq_of_length
          (Nat.le_antisymm hq.length_le hpq.length_le)) hne
      · intro f hf
        have := (List.mem_filter.mp hf).2
        simpa using this
    · obtain ⟨n, c, hmem, hm, he'⟩ := mem_walkList.mp h2
      have hsz : sizeOf c ≤ N := by
        have := sizeOf_children_lt hmem
        omega
      obtain ⟨hpre, hmid, hfiles⟩ := ih c hsz excl (path ++ [n]) e he'
      refine ⟨(List.prefix_append path [n]).trans hpre, ?_, hfiles⟩
      intro q hpq hne hq
      have hlen : path.length < q.length := by
        rcases Nat.lt_or_ge path.length q.length with hlt | hge
        · exact hlt
        · exact absurd (hpq.eq_of_length
            (Nat.le_antisymm hpq.length_le hge)).symm hne
      rcases List.prefix_or_prefix_of_prefix hq hpre with hql | hqr
      · have hqeq : q = path ++ [n] := hql.eq_of_length
          (Nat.le_antisymm hql.length_le (by simp; omega))
        rw [hqeq]
        exact hm
      · by_cases hqn : q = path ++ [n]
        · rw [hqn]; exact hm
        · exact hmid q hqr hqn hq

/-- The visit below one subdirectory entry is the subdirectory's visit list,
guarded by its exclude test. -/
theorem visitedEntry_dir (excl : List RE) (path : List String) (n : String)
    (c : List FSEntry) :
    visitedEntry excl path (FSEntry.dir n c) =
      if matchesAny excl (joinPath (path ++ [n])) then []
      else visited excl (path ++ [n]) c :=
  rfl

/-- Characterization of the directories visited below the entries of one
listing. -/
theorem mem_visitedList {excl : List RE} {path : List String} :
    ∀ {cs : List FSEntry} {v : List String},
      v ∈ visitedList excl path cs ↔
        ∃ n c, FSEntry.dir n c ∈ cs ∧
          matchesAny excl (joinPath (path ++ [n])) = false ∧
          v ∈ visited excl (path ++ [n]) c := by
  intro cs
  induction cs with
  | nil => intro v; simp [visitedList]
  | cons head rest ih =>
    intro v
    cases head with
    | file m =>
      show v ∈ visitedEntry excl path (FSEntry.file m) ++ visitedList excl path rest ↔ _
      rw [show visitedEntry excl path (FSEntry.file m) = [] from rfl, List.nil_append, ih]
      constructor
      · rintro ⟨n, c, hmem, hm, he⟩
        exact ⟨n, c, List.mem_cons_of_mem _ hmem, hm, he⟩
      · rintro ⟨n, c, hmem, hm, he⟩
        rcases List.mem_cons.mp hmem with hh | ht
        · cases hh
        · exact ⟨n, c, ht, hm, he⟩
    | dir m cm =>
      show v ∈ visitedEntry excl path (FSEntry.dir m cm) ++ visitedList excl path rest ↔ _
      rw [List.mem_append, visitedEntry_dir, ih]
      constructor
      · rintro (hent | ⟨n, c, hmem, hm, he⟩)
        · split at hent
          · cases hent
          · rename_i hm
            exact ⟨m, cm, List.mem_cons_self _ _,
              Bool.not_eq_true _ ▸ Bool.of_not_eq_true hm, hent⟩
        · exact ⟨n, c, List.mem_cons_of_mem _ hmem, hm, he⟩
      · rintro ⟨n, c, hmem, hm, he⟩
        rcases List.mem_cons.mp hmem with hh | ht
        · obtain ⟨hn, hc⟩ := FSEntry.dir.inj hh
          subst hn; subst hc
          left
          rw [if_neg (by simp [hm])]
          exact he
        · exact Or.inr ⟨n, c, ht, hm, he⟩

/-- The visit invariant: every visited directory sits at or below `path`, and
every strictly intermediate directory on the way to it (itself included, when
distinct from `path`) passed the exclude test. -/
theorem visited_spec :
    ∀ (N : Nat) (cs : List FSEntry), sizeOf cs ≤ N →
    ∀ (excl : List RE) (path : List String) (v : List String),
      v ∈ visited excl path cs →
      path <+: v ∧
      (∀ q, path <+: q → q ≠ path → q <+: v →
        matchesAny excl (joinPath q) = false) := by
  intro N
  induction N with
  | zero =>
    intro cs h
    cases cs with
    | nil => simp at h
    | cons a l =>
      have hsz : sizeOf (a :: l) = 1 + sizeOf a + sizeOf l := by simp
      omega
  | succ N ih =>
    intro cs h excl path v hv
    rcases List.mem_cons.mp hv with h1 | h2
    · subst h1
      refine ⟨List.prefix_rfl, ?_⟩
      intro q hpq hne hq
      exact absurd (hq.eq_of_length
        (Nat.le_antisymm hq.length_le hpq.length_le)) hne
    · obtain ⟨n, c, hmem, hm, hv'⟩ := mem_visitedList.mp h2
      have hsz : sizeOf c ≤ N := by
        have := sizeOf_children_lt hmem
        omega
      obtain ⟨hpre, hmid⟩ := ih c hsz excl (path ++ [n]) v hv'
      refine ⟨(List.prefix_append path [n]).trans hpre, ?_⟩
      intro q hpq hne hq
      have hlen : path.length < q.length := by
        rcases Nat.lt_or_ge path.length q.length with hlt | hge
        · exact hlt
        · exact absurd (hpq.eq_of_length
            (Nat.le_antisymm hpq.length_le hge)).symm hne
      rcases List.prefix_or_prefix_of_prefix hq hpre with hql | hqr
      · have hqeq : q = path ++ [n] := hql.eq_of_length
          (Nat.le_antisymm hql.length_le (by simp; omega))
        rw [hqeq]
        exact hm
      · by_cases hqn : q = path ++ [n]
        · rw [hqn]; exact hm
        · exact hmid q hqr hqn hq

/-- On a completed file loop, a path is among the uploads exactly when it is
the path of one of the listed files and the decision for it came out true. -/
theorem mem_syncFiles (localTime localSize : List String → Int)
    (probe : List String → Except FtpError (Int × Int)) (off : Int)
    (path : List String) :
    ∀ (fs : List String) (ups : List (List String)),
      syncFiles localTime localSize probe off path fs = Except.ok ups →
      ∀ p, p ∈ ups ↔ ∃ f ∈ fs, p = path ++ [f] ∧
        fileSyncDecisionE (localTime p) (localSize p) (probe p) off =
          Except.ok true := by
  intro fs
  induction fs with
  | nil =>
    intro ups h p
    cases h
    simp
  | cons f fs' ih =>
    intro ups h p
    rw [syncFiles] at h
    cases hd : fileSyncDecisionE (localTime (path ++ [f])) (localSize (path ++ [f]))
        (probe (path ++ [f])) off with
    | error e => rw [hd] at h; cases h
    | ok b =>
      rw [hd] at h
      cases hr : syncFiles localTime localSize probe off path fs' with
      | error e => rw [hr] at h; cases h
      | ok rest =>
        rw [hr] at h
        cases h
        have ihp := ih rest hr p
        constructor
        · intro hp
          cases b with
          | true =>
            rcases List.mem_cons.mp hp with hph | hpt
            · exact ⟨f, List.mem_cons_self _ _, hph, by rw [hph]; exact hd⟩
            · obtain ⟨g, hg, hpg, hdg⟩ := ihp.mp hpt
              exact ⟨g, List.mem_cons_of_mem _ hg, hpg, hdg⟩
          | false =>
            obtain ⟨g, hg, hpg, hdg⟩ := ihp.mp (by simpa using hp)
            exact ⟨g, List.mem_cons_of_mem _ hg, hpg, hdg⟩
        · rintro ⟨g, hg, hpg, hdg⟩
          rcases List.mem_cons.mp hg with hgh | hgt
          · subst hgh
            subst hpg
            rw [hd] at hdg
            cases hdg
            simp
          · cases b with
            | true => exact List.mem_cons_of_mem _ (ihp.mpr ⟨g, hgt, hpg, hdg⟩)
            | false => simpa using ihp.mpr ⟨g, hgt, hpg, hdg⟩

/-- On a completed run, a path is among the uploads exactly when it is the
path of a file of some tree entry and the decision for it came out true. -/
theorem mem_syncRun (localTime localSize : List String → Int)
    (probe : List String → Except FtpError (Int × Int)) (off : Int) :
    ∀ (tree : List (List String × List String)) (ups : List (List String)),
      syncRun localTime localSize probe off tree = Except.ok ups →
      ∀ p, p ∈ ups ↔ ∃ en ∈ tree, ∃ f ∈ en.2, p = en.1 ++ [f] ∧
        fileSyncDecisionE (localTime p) (localSize p) (probe p) off =
          Except.ok true := by
  intro tree
  induction tree with
  | nil =>
    intro ups h p
    cases h
    simp
  | cons en rest ih =>
    intro ups h p
    rw [syncRun] at h
    cases hf : syncFiles localTime localSize probe off en.1 en.2 with
    | error e => rw [hf] at h; cases h
    | ok here =>
      rw [hf] at h
      cases hr : syncRun localTime localSize probe off rest with
      | error e => rw [hr] at h; cases h
      | ok more =>
        rw [hr] at h
        cases h
        have hfm := mem_syncFiles localTime localSize probe off en.1 en.2 here hf p
        have ihp := ih more hr p
        rw [List.mem_append, hfm, ihp]
        constructor
        · rintro (⟨f, hfmem, hpf, hdf⟩ | ⟨en', hen', f, hfmem, hpf, hdf⟩)
          · exact ⟨en, List.mem_cons_self _ _, f, hfmem, hpf, hdf⟩
          · exact ⟨en', List.mem_cons_of_mem _ hen', f, hfmem, hpf, hdf⟩
        · rintro ⟨en', hen', f, hfmem, hpf, hdf⟩
          rcases List.mem_cons.mp hen' with hh | ht
          · subst hh
            exact Or.inl ⟨f, hfmem, hpf, hdf⟩
          · exact Or.inr ⟨en', ht, f, hfmem, hpf, hdf⟩

/-- C1: for every file in the walked tree, an upload is performed iff
`local_mtime > remote_mtime_corrected` or `local_size != remote_size`; in
particular a file present both locally and remotely with equal size and a
corrected remote modification time strictly greater than the local one is
never uploaded, and any size mismatch forces an upload regardless of the time
comparison. -/
theorem upload_decision_iff (localTime localSize : List String → Int)
    (probe : List String → Except FtpError (Int × Int)) (off : Int)
    (tree : List (List String × List String)) (ups : List (List String))
    (p : List String) (t s : Int)
    (hrun : syncRun localTime localSize probe off tree = Except.ok ups)
    (hp : probe p = Except.ok (t, s)) :
    (p ∈ ups ↔ (∃ en ∈ tree, ∃ f ∈ en.2, p = en.1 ++ [f]) ∧
      (t + off < localTime p ∨ localSize p ≠ s)) ∧
    (localSize p = s → localTime p < t + off → p ∉ ups) ∧
    ((∃ en ∈ tree, ∃ f ∈ en.2, p = en.1 ++ [f]) → localSize p ≠ s →
      p ∈ ups) := by
  have hdec : fileSyncDecisionE (localTime p) (localSize p) (probe p) off =
      Except.ok (decide (t + off < localTime p) || decide (localSize p ≠ s)) := by
    simp [fileSyncDecisionE, remoteMetaE, hp]
  have hmem := mem_syncRun localTime localSize probe off tree ups hrun p
  have hmain : p ∈ ups ↔ (∃ en ∈ tree, ∃ f ∈ en.2, p = en.1 ++ [f]) ∧
      (t + off < localTime p ∨ localSize p ≠ s) := by
    rw [hmem]
    constructor
    · rintro ⟨en, hen, f, hf, hpf, hc⟩
      rw [hdec] at hc
      refine ⟨⟨en, hen, f, hf, hpf⟩, ?_⟩
      have hb := Except.ok.inj hc
      simpa using hb
    · rintro ⟨⟨en, hen, f, hf, hpf⟩, hc⟩
      refine ⟨en, hen, f, hf, hpf, ?_⟩
      rw [hdec]
      have hb : (decide (t + off < localTime p) || decide (localSize p ≠ s)) = true := by
        simpa using hc
      rw [hb]
  refine ⟨hmain, ?_, ?_⟩
  · intro hsz hlt hpin
    rcases (hmain.mp hpin).2 with hlt' | hne
    · omega
    · exact hne hsz
  · intro hpresent hne
    exact hmain.mpr ⟨hpresent, Or.inr hne⟩

/-- Witness for C1: local file `a.txt` with mtime 100 and size 5, remote copy
with raw mtime 90 and size 5 under offset 3 (corrected remote time 93 < 100),
in a completed run uploading exactly that file. -/
theorem upload_decision_iff_witness :
    syncRun (fun _ => 100) (fun _ => 5) (fun _ => Except.ok (90, 5)) 3
        [([], ["a.txt"])] = Except.ok [["a.txt"]] ∧
    (["a.txt"] : List String) ∈ [["a.txt"]] :=
  ⟨by decide,
    ((upload_decision_iff (fun _ => 100) (fun _ => 5) (fun _ => Except.ok (90, 5)) 3
        [([], ["a.txt"])] [["a.txt"]] ["a.txt"] 90 5 (by decide) rfl).1).mpr
      ⟨⟨([], ["a.txt"]), by decide, "a.txt", by decide, rfl⟩, Or.inl (by decide)⟩⟩

/-- C4: a local directory whose walk-relative path matches an exclude rule is
pruned before descent: it is never visited, no record of the built tree lies
at or below it, and no file under it is ever uploaded. -/
theorem excluded_dir_subtree_pruned (excl : List RE) (cs : List FSEntry)
    (q : List String) (hm : matchesAny excl (joinPath q) = true) (hq : q ≠ []) :
    (∀ e ∈ walk excl [] cs, ¬ q <+: e.1) ∧
    (∀ v ∈ visited excl [] cs, ¬ q <+: v) ∧
    (∀ (localTime localSize : List String → Int)
       (probe : List String → Except FtpError (Int × Int)) (off : Int)
       (ups : List (List String)),
      syncRun localTime localSize probe off (walk excl [] cs) = Except.ok ups →
      ∀ p ∈ ups, ¬ q <+: p) := by
  have hwalk : ∀ e ∈ walk excl [] cs, ¬ q <+: e.1 := by
    intro e he hcon
    have hspec := walk_spec (sizeOf cs) cs le_rfl excl [] e he
    have hfalse := hspec.2.1 q List.nil_prefix hq hcon
    simp [hfalse] at hm
  refine ⟨hwalk, ?_, ?_⟩
  · intro v hv hcon
    have hspec := visited_spec (sizeOf cs) cs le_rfl excl [] v hv
    have hfalse := hspec.2 q List.nil_prefix hq hcon
    simp [hfalse] at hm
  · intro localTime localSize probe off ups hrun p hp hcon
    obtain ⟨en, hen, f, hf, hpf, _⟩ :=
      (mem_syncRun localTime localSize probe off _ ups hrun p).mp hp
    have hspec := walk_spec (sizeOf cs) cs le_rfl excl [] en hen
    subst hpf
    rcases List.prefix_or_prefix_of_prefix hcon (List.prefix_append en.1 [f])
      with hql | hqr
    · exact hwalk en hen hql
    · have hlen2 : q.length ≤ en.1.length + 1 := by
        have := hcon.length_le
        simpa using this
      by_cases hqe : q.length = en.1.length
      · have hq1 : en.1 = q := hqr.eq_of_length hqe.symm
        exact hwalk en hen (by rw [hq1])
      · have hqe2 : q.length = (en.1 ++ [f]).length := by
          have := hqr.length_le
          simp
          omega
        have hqeq : q = en.1 ++ [f] := hcon.eq_of_length hqe2
        have hfile := hspec.2.2 f hf
        rw [← hqeq] at hfile
        simp [hfile] at hm

/-- Witness for C4: excluding `build` over a tree with `build/x` and `src/z`
leaves the record `src` (not below `build`) and uploads only `src/z` (not
below `build`). -/
theorem excluded_dir_subtree_pruned_witness :
    (¬ (["build"] : List String) <+: ["src"]) ∧
    (¬ (["build"] : List String) <+: ["src", "z"]) :=
  have h := excluded_dir_subtree_pruned [strRE "build".data]
    [FSEntry.dir "build" [FSEntry.file "x"], FSEntry.dir "src" [FSEntry.file "z"]]
    ["build"] (by decide) (by decide)
  ⟨h.1 (["src"], ["z"]) (by decide),
   h.2.2 (fun _ => 1) (fun _ => 1) (fun _ => Except.error FtpError.perm) 0
     [["src", "z"]] (by decide) ["src", "z"] (by decide)⟩

/-- C10: on every run the literal pattern `.timestamp` is appended to the
exclude rules, independently of the user-supplied exclude flags: no file whose
walk-relative path the pattern fully matches is ever included in the built
tree, and an explicit file argument matching it at a segment boundary is
dropped. -/
theorem timestamp_always_excluded (userExcludes : List RE) (cs : List FSEntry) :
    (∀ e ∈ walk (effectiveExcludes userExcludes) [] cs, ∀ f ∈ e.2,
      timestampRE.rmatch (joinPath (e.1 ++ [f])).data = false) ∧
    (∀ files f, f ∈ filterExplicit (effectiveExcludes userExcludes) files →
      fileArgMatches timestampRE f = false) := by
  constructor
  · intro e he f hf
    have hspec := walk_spec (sizeOf cs) cs le_rfl (effectiveExcludes userExcludes) [] e he
    have hall := hspec.2.2 f hf
    unfold matchesAny at hall
    have hts := List.any_eq_false.mp hall timestampRE (by simp [effectiveExcludes])
    rw [← ruleMatches_eq_rmatch]
    simpa using hts
  · intro files f hf
    have hmem := List.mem_filter.mp hf
    have hx : (effectiveExcludes userExcludes).any
        (fun p => fileArgMatches p f) = false := by
      have hb := hmem.2
      simpa using hb
    simpa using List.any_eq_false.mp hx timestampRE (by simp [effectiveExcludes])

/-- Witness for C10: with no user excludes, `.timestamp` is dropped both from
a walked directory that also holds `notes.txt` and from the explicit file
arguments, while the other entries survive and indeed do not match. -/
theorem timestamp_always_excluded_witness :
    timestampRE.rmatch (joinPath ([] ++ ["notes.txt"])).data = false ∧
    fileArgMatches timestampRE "ok.txt" = false :=
  ⟨(timestamp_always_excluded [] [FSEntry.file ".timestamp", FSEntry.file "notes.txt"]).1
      ([], ["notes.txt"]) (by decide) "notes.txt" (by decide),
   (timestamp_always_excluded [] []).2 [".timestamp", "ok.txt"] "ok.txt" (by decide)⟩

/-- The orphan indexer's results do not depend on the keep rules at all: the
`continue` in the keep loop at ftpmirror.py:147 only advances the inner loop
over keep patterns, so it never skips the entry. -/
theorem rlstList_keeps_irrelevant :
    ∀ (N : Nat) (es : List FSEntry), sizeOf es ≤ N →
    ∀ (keeps keeps' : List RE) (path : String),
      rlstList keeps path es = rlstList keeps' path es := by
  intro N
  induction N with
  | zero =>
    intro es h
    cases es with
    | nil => intro _ _ _; rfl
    | cons a l =>
      have hsz : sizeOf (a :: l) = 1 + sizeOf a + sizeOf l := by simp
      omega
  | succ N ih =>
    intro es h keeps keeps' path
    cases es with
    | nil => rfl
    | cons e rest =>
      have hsz : sizeOf (e :: rest) = 1 + sizeOf e + sizeOf rest := by simp
      show rlstEntry keeps path e ++ rlstList keeps path rest =
        rlstEntry keeps' path e ++ rlstList keeps' path rest
      have htail : rlstList keeps path rest = rlstList keeps' path rest :=
        ih rest (by omega) keeps keeps' path
      have hhead : rlstEntry keeps path e = rlstEntry keeps' path e := by
        cases e with
        | file n => rfl
        | dir n c =>
          have hcsz : sizeOf (FSEntry.dir n c) = 1 + sizeOf n + sizeOf c := by simp
          show (rlstList keeps (if path = "" then n else path ++ "/" ++ n) c).map
              (fun nxt => n ++ "/" ++ nxt) =
            (rlstList keeps' (if path = "" then n else path ++ "/" ++ n) c).map
              (fun nxt => n ++ "/" ++ nxt)
          rw [ih c (by omega) keeps keeps' _]
      rw [hhead, htail]

/-- C3: the code contradicts the spec's stated intent here.  A remote entry
whose relative path matches a keep rule is not excluded from the orphan
candidate set: the `continue` in the keep loop only advances to the next keep
pattern, so the entry is still indexed.  Concretely, with keep rule `secret`
and a remote root holding the file `secret`, the rule matches yet the file
ends up in the candidate set; in general the candidate set is the same as
with no keep rules at all. -/
theorem rlst_keep_match_still_candidate :
    ruleMatches (strRE "secret".data) "secret" = true ∧
    rlst [strRE "secret".data] [FSEntry.file "secret"] = ["secret"] ∧
    (∀ keeps es, rlst keeps es = rlst [] es) :=
  ⟨by decide, by decide, fun keeps es =>
    rlstList_keeps_irrelevant (sizeOf es) es le_rfl keeps [] ""⟩

end FtpMirror
